import Mathlib

/-
Verification of the sandboxed filesystem layer of penr-oz-mcp-server
(app/filesystem.py, app/resources.py, app/tools.py, app/config.py).

Shallow embedding: a path component is a list of characters, an absolute
path is a list of components, and a filesystem is an association list from
absolute canonical paths to nodes (regular file with byte content,
directory, symbolic link with its raw target, or special file such as
FIFO/device).  Python strings are embedded as lists of characters.
Path resolution follows POSIX realpath semantics (strict left-to-right
processing, symlinks followed where they exist, `..` applied to the
already-resolved prefix, missing suffixes appended lexically), with a
fuel bound standing in for the OS symlink-loop limit.
-/

namespace OzSandbox

/-- Decidable equality of Except values, for evaluating concrete runs. -/
instance instDecEqExcept {ε α : Type} [DecidableEq ε] [DecidableEq α] :
    DecidableEq (Except ε α) := fun x y =>
  match x, y with
  | Except.ok a, Except.ok b =>
    if h : a = b then isTrue (h ▸ rfl) else isFalse (fun hh => h (Except.ok.inj hh))
  | Except.error a, Except.error b =>
    if h : a = b then isTrue (h ▸ rfl) else isFalse (fun hh => h (Except.error.inj hh))
  | Except.ok _, Except.error _ => isFalse (fun hh => Except.noConfusion hh)
  | Except.error _, Except.ok _ => isFalse (fun hh => Except.noConfusion hh)

/-- One path component (the text between two slashes), as a character list. -/
abbrev Comp : Type := List Char

/-- The component consisting of a single dot. -/
def dot : Comp := ['.']

/-- The parent-directory component. -/
def dotdot : Comp := ['.', '.']

/-- An absolute filesystem path: the list of components below the OS root. -/
abbrev AbsPath : Type := List Comp

/-- Character list of a string literal (convenience for concrete states). -/
def cs (s : String) : List Char := s.data

/-- A filesystem node, as seen by lstat: regular file (with byte content),
directory, symbolic link (absolute flag and raw target components), or a
special file (FIFO, socket, device) carrying the S_IFMT type code of its
st_mode (e.g. 0o010000 for a FIFO, 0o140000 for a socket, 0o060000 for a
block device) and its st_size. -/
inductive Node : Type
  | file (content : List Nat)
  | dir
  | symlink (tabs : Bool) (target : List Comp)
  | special (mode : Nat) (sz : Nat)
deriving DecidableEq

/-- A filesystem state: association list from absolute paths to nodes.
The OS root `[]` is always implicitly a directory. -/
abbrev FS : Type := List (AbsPath × Node)

/-- Raw (lstat-at-exact-key) lookup of a node; the OS root is always a dir. -/
def lookupRaw (fs : FS) (p : AbsPath) : Option Node :=
  if p = [] then some Node.dir
  else
    match fs.find? (fun kv => decide (kv.1 = p)) with
    | some kv => some kv.2
    | none => none

/-- Whether an optional node is a symbolic link. -/
def optIsLink : Option Node → Bool
  | some (Node.symlink _ _) => true
  | _ => false

/-- Whether a node is a symbolic link. -/
def isLinkN : Node → Bool
  | Node.symlink _ _ => true
  | _ => false

/-- Whether a node is a special file. -/
def isSpecialN : Node → Bool
  | Node.special _ _ => true
  | _ => false

/-- The raw bit test `st_mode & 0o040000` of the source.  A directory
mode (0o040000) sets the bit; a regular file (0o100000) and a symlink
(0o120000) do not; a special file sets it exactly when its S_IFMT code
contains the 0o040000 bit, which is the case for sockets (0o140000) and
block devices (0o060000) but not FIFOs (0o010000) or character devices
(0o020000). -/
def nodeIsDir : Node → Bool
  | Node.dir => true
  | Node.special mode _ => decide (Nat.land mode 16384 ≠ 0)
  | _ => false

/-- The st_size field of a node's (l)stat record. -/
def nodeSize : Node → Nat
  | Node.file bs => bs.length
  | Node.special _ sz => sz
  | _ => 0

/-- Combined length of all symlink targets, used to bound resolution fuel. -/
def linkBudget (fs : FS) : Nat :=
  fs.foldr
    (fun kv acc =>
      match kv.2 with
      | Node.symlink _ t => t.length + 2 + acc
      | _ => acc)
    0

/-- Fuel bound for path resolution: generous enough that resolution of any
path in a loop-free filesystem terminates normally; exhaustion models the
OS ELOOP failure. -/
def fuelFor (fs : FS) (p : List Comp) : Nat :=
  p.length + 1 + 64 * (linkBudget fs + 2) * (linkBudget fs + 2)

/-- POSIX-style path resolution (os.path.realpath with strict=False):
process components left to right against the already-resolved prefix,
skip empty and dot components, apply `..` to the resolved prefix, follow
symlinks that exist, and append components that do not resolve to a link
(existing or not) lexically. -/
def resolveAux (fs : FS) : Nat → AbsPath → List Comp → Option AbsPath
  | _, acc, [] => some acc
  | 0, _, _ :: _ => none
  | fuel + 1, acc, c :: rs =>
    if c = [] ∨ c = dot then resolveAux fs fuel acc rs
    else if c = dotdot then resolveAux fs fuel acc.dropLast rs
    else
      match lookupRaw fs (acc ++ [c]) with
      | some (Node.symlink tabs tgt) =>
        resolveAux fs fuel (if tabs then [] else acc) (tgt ++ rs)
      | _ => resolveAux fs fuel (acc ++ [c]) rs

/-- Canonicalize an absolute path (Path.resolve, non-strict). -/
def resolve (fs : FS) (p : AbsPath) : Option AbsPath :=
  resolveAux fs (fuelFor fs p) [] p

/-- The node a following stat sees at a path (os.stat). -/
def statNode (fs : FS) (p : AbsPath) : Option Node :=
  (resolve fs p).bind (fun r => lookupRaw fs r)

/-- Path.exists(): follows symlinks; False on resolution failure. -/
def existsF (fs : FS) (p : AbsPath) : Bool :=
  (statNode fs p).isSome

/-- Path.is_dir(): follows symlinks. -/
def isDirF (fs : FS) (p : AbsPath) : Bool :=
  match statNode fs p with
  | some Node.dir => true
  | _ => false

/-- lstat: resolve everything but the final component, then look at the
final component without following it (a trailing dot or dot-dot is fully
resolved by the OS before the final lookup). -/
def lstatNode (fs : FS) (p : AbsPath) : Option Node :=
  match p.getLast? with
  | none => some Node.dir
  | some c =>
    if c = [] ∨ c = dot ∨ c = dotdot then statNode fs p
    else (resolve fs p.dropLast).bind (fun rd => lookupRaw fs (rd ++ [c]))

/-- Path.is_symlink(): lstat-based; False if the lstat fails. -/
def isSymlinkF (fs : FS) (p : AbsPath) : Bool :=
  optIsLink (lstatNode fs p)

/-- Split a character list on slashes (str.split of pathlib parsing). -/
def splitSlash : List Char → List Comp
  | [] => [[]]
  | c :: rest =>
    if c = '/' then [] :: splitSlash rest
    else
      match splitSlash rest with
      | [] => [[c]]
      | h :: t => (c :: h) :: t

/-- The components pathlib keeps from a path string: empty components and
single dots are dropped, `..` is kept literally. -/
def parseRel (p : List Char) : List Comp :=
  (splitSlash p).filter (fun c => !(c == [] || c == dot))

/-- Step 2 of validate_path: `if path.startswith('/'): path = path.lstrip('/')`. -/
def stripLeading (p : List Char) : List Char :=
  if p.head? = some '/' then p.dropWhile (fun c => c == '/') else p

/-- The pathlib `/` join: an absolute right-hand side replaces the root. -/
def joinAbs (root : AbsPath) (p : List Char) : AbsPath :=
  if p.head? = some '/' then parseRel p else root ++ parseRel p

/-- Boolean component-wise prefix test (PurePath.is_relative_to). -/
def isPre : AbsPath → AbsPath → Bool
  | [], _ => true
  | _ :: _, [] => false
  | a :: as, b :: bs => if a = b then isPre as bs else false

/-- The error kinds surfaced by the sandbox layer.  `escape`, `symlink`
and `invalid` are the PathValidationError variants; `other` stands for an
exception kind that the layer itself never raises as PathValidationError
(e.g. the ValueError of relative_to). -/
inductive Err : Type
  | escape
  | symlink
  | invalid
  | notFound
  | notADir
  | isADir
  | decodeErr
  | other
deriving DecidableEq

/-- The symlink walk of validate_path:
`while current != sandbox_resolved: if exists and is_symlink: raise; if
current == current.parent: break; current = current.parent`.  Fuel is one
more than the chain length, so the zero case is never reached. -/
def walkGo (fs : FS) (sres : AbsPath) : Nat → AbsPath → Except Err Unit
  | 0, _ => Except.ok ()
  | fuel + 1, cur =>
    if cur = sres then Except.ok ()
    else if existsF fs cur && isSymlinkF fs cur then Except.error Err.symlink
    else if cur = [] then Except.ok ()
    else walkGo fs sres fuel cur.dropLast

/-- The symlink walk, started at the candidate path. -/
def walkCheck (fs : FS) (sres : AbsPath) (cand : AbsPath) : Except Err Unit :=
  walkGo fs sres (cand.length + 1) cand

/-- The list of paths the symlink walk inspects (same traversal as
walkGo, recording each current value that gets the exists/is_symlink
check). -/
def chainGo (sres : AbsPath) : Nat → AbsPath → List AbsPath
  | 0, _ => []
  | fuel + 1, cur =>
    if cur = sres then []
    else cur :: (if cur = [] then [] else chainGo sres fuel cur.dropLast)

/-- The inspected ancestry chain of a candidate path. -/
def chainList (sres cand : AbsPath) : List AbsPath :=
  chainGo sres (cand.length + 1) cand

/-- SANDBOX_ROOT.mkdir(parents=True, exist_ok=True): succeed without
change when the target stats as a directory, fail (OSError) when it stats
as something else or lstats as a dangling link, otherwise ensure the
parent recursively and create the directory at the OS-resolved location.
Failure leaves the filesystem unchanged, as the kernel call fails before
any creation. -/
def mkdirpGo : Nat → FS → AbsPath → Option FS
  | _, fs, [] => some fs
  | 0, _, _ :: _ => none
  | fuel + 1, fs, q@(_ :: _) =>
    match statNode fs q with
    | some Node.dir => some fs
    | some _ => none
    | none =>
      if (lstatNode fs q).isSome then none
      else
        match mkdirpGo fuel fs q.dropLast with
        | none => none
        | some fs1 =>
          match resolve fs1 q.dropLast with
          | none => none
          | some rd =>
            match lookupRaw fs1 rd with
            | some Node.dir => some ((rd ++ [q.getLastD []], Node.dir) :: fs1)
            | _ => none

/-- Idempotent recursive creation of the sandbox root. -/
def mkdirp (fs : FS) (p : AbsPath) : Option FS :=
  mkdirpGo (p.length + 1) fs p

/-- validate_path after the leading-slash strip: ensure the root exists,
join, run the symlink walk against the canonicalized root, resolve, and
apply the component-wise containment check. -/
def validateCore (fs : FS) (root : AbsPath) (p1 : List Char) :
    Except Err AbsPath × FS :=
  match mkdirp fs root with
  | none => (Except.error Err.invalid, fs)
  | some fs1 =>
    match resolve fs1 root with
    | none => (Except.error Err.invalid, fs1)
    | some sres =>
      match walkCheck fs1 sres (joinAbs root p1) with
      | Except.error e => (Except.error e, fs1)
      | Except.ok _ =>
        match resolve fs1 (joinAbs root p1) with
        | none => (Except.error Err.invalid, fs1)
        | some full =>
          if isPre sres full then (Except.ok full, fs1)
          else (Except.error Err.escape, fs1)

/-- app.filesystem.validate_path.  The sandbox root is the configured
SANDBOX_ROOT path; the result pairs the outcome with the filesystem state
after the idempotent root creation. -/
def validate_path (fs : FS) (root : AbsPath) (p : List Char) :
    Except Err AbsPath × FS :=
  validateCore fs root (stripLeading p)

/-- The kind of a returned directory entry. -/
inductive EKind : Type
  | file
  | directory
deriving DecidableEq

/-- One directory entry of list_directory: name, type string, path
relative to SANDBOX_ROOT, and st_size for non-directories. -/
structure Entry : Type where
  name : Comp
  type : EKind
  path : AbsPath
  size : Option Nat
deriving DecidableEq

/-- The entry built for a retained child, classified by the S_IFDIR bit
of its lstat mode; size attached only when that bit is clear. -/
def entryFor (root : AbsPath) (item : AbsPath) (n : Comp) (nd : Node) : Entry :=
  if nodeIsDir nd then
    { name := n, type := EKind.directory, path := item.drop root.length, size := none }
  else
    { name := n, type := EKind.file, path := item.drop root.length, size := some (nodeSize nd) }

/-- The names of the immediate children of a directory key. -/
def childNames (fs : FS) (d : AbsPath) : List Comp :=
  (fs.map Prod.fst).filterMap
    (fun k => if k ≠ [] ∧ k.dropLast = d then k.getLast? else none)

/-- Lexicographic codepoint comparison of names (Python str ordering). -/
def nameLE : List Char → List Char → Bool
  | [], _ => true
  | _ :: _, [] => false
  | a :: as, b :: bs =>
    if a < b then true
    else if b < a then false
    else nameLE as bs

/-- Insert a name into an already sorted list of names. -/
def insertName (x : Comp) : List Comp → List Comp
  | [] => [x]
  | y :: ys => if nameLE x y then x :: y :: ys else y :: insertName x ys

/-- sorted(): sort names ascending by codepoint. -/
def sortNames : List Comp → List Comp
  | [] => []
  | x :: xs => insertName x (sortNames xs)

/-- The loop body of list_directory over the sorted children: skip
symlinked children silently, fail if an entry vanished under lstat,
compute the SANDBOX_ROOT-relative path (ValueError when the root is not a
component-wise prefix of the item), and classify by the lstat mode. -/
def buildEntries (fs : FS) (root r : AbsPath) : List Comp → Except Err (List Entry)
  | [] => Except.ok []
  | n :: ns =>
    match lstatNode fs (r ++ [n]) with
    | some (Node.symlink _ _) => buildEntries fs root r ns
    | none => Except.error Err.notFound
    | some nd =>
      if isPre root (r ++ [n]) then
        match buildEntries fs root r ns with
        | Except.error e => Except.error e
        | Except.ok es => Except.ok (entryFor root (r ++ [n]) n nd :: es)
      else Except.error Err.other

/-- Whether a child of r named n is retained by the listing (present and
not a symlink). -/
def keepB (fs : FS) (r : AbsPath) (n : Comp) : Bool :=
  match lookupRaw fs (r ++ [n]) with
  | some nd => !isLinkN nd
  | none => false

/-- app.filesystem.list_directory: validate, require an existing
directory, then list the sorted, symlink-free children. -/
def list_directory (fs : FS) (root : AbsPath) (p : List Char) :
    Except Err (List Entry) × FS :=
  match validate_path fs root p with
  | (Except.error e, fs1) => (Except.error e, fs1)
  | (Except.ok r, fs1) =>
    if existsF fs1 r = false then (Except.error Err.notFound, fs1)
    else if isDirF fs1 r = false then (Except.error Err.notADir, fs1)
    else
      match resolve fs1 r with
      | none => (Except.error Err.other, fs1)
      | some rd =>
        match buildEntries fs1 root r (sortNames (childNames fs1 rd)) with
        | Except.error e => (Except.error e, fs1)
        | Except.ok es => (Except.ok es, fs1)

/-- Strict UTF-8 decoding of a byte list into the list of decoded
codepoints: rejects stray continuation bytes, overlong encodings,
surrogates, codepoints above U+10FFFF, and truncated sequences. -/
def utf8Decode : List Nat → Option (List Nat)
  | [] => some []
  | b :: bs =>
    if b < 128 then (utf8Decode bs).map (fun r => b :: r)
    else if b < 194 then none
    else if b < 224 then
      match bs with
      | b1 :: bs1 =>
        if 128 ≤ b1 && b1 < 192 then
          (utf8Decode bs1).map (fun r => ((b - 192) * 64 + (b1 - 128)) :: r)
        else none
      | [] => none
    else if b < 240 then
      match bs with
      | b1 :: b2 :: bs2 =>
        if (if b = 224 then 160 ≤ b1 && b1 < 192
            else if b = 237 then 128 ≤ b1 && b1 < 160
            else 128 ≤ b1 && b1 < 192) && (128 ≤ b2 && b2 < 192) then
          (utf8Decode bs2).map
            (fun r => ((b - 224) * 4096 + (b1 - 128) * 64 + (b2 - 128)) :: r)
        else none
      | _ => none
    else if b < 245 then
      match bs with
      | b1 :: b2 :: b3 :: bs3 =>
        if (if b = 240 then 144 ≤ b1 && b1 < 192
            else if b = 244 then 128 ≤ b1 && b1 < 144
            else 128 ≤ b1 && b1 < 192) && (128 ≤ b2 && b2 < 192)
            && (128 ≤ b3 && b3 < 192) then
          (utf8Decode bs3).map
            (fun r =>
              ((b - 240) * 262144 + (b1 - 128) * 4096 + (b2 - 128) * 64
                + (b3 - 128)) :: r)
        else none
      | _ => none
    else none

/-- Universal-newline translation performed by text-mode reading:
CR LF and lone CR both become LF in the returned text. -/
def fixNewlines : List Nat → List Nat
  | [] => []
  | 13 :: 10 :: rest => 10 :: fixNewlines rest
  | 13 :: rest => 10 :: fixNewlines rest
  | c :: rest => c :: fixNewlines rest

/-- app.filesystem.read_file: validate, require an existing non-directory,
read the bytes through the following stat and decode them strictly as
UTF-8 (the final catch-all stands for the OS-level failure of opening a
special file, which the layer does not wrap). -/
def read_file (fs : FS) (root : AbsPath) (p : List Char) :
    Except Err (List Nat) × FS :=
  match validate_path fs root p with
  | (Except.error e, fs1) => (Except.error e, fs1)
  | (Except.ok r, fs1) =>
    if existsF fs1 r = false then (Except.error Err.notFound, fs1)
    else if isDirF fs1 r then (Except.error Err.isADir, fs1)
    else
      match statNode fs1 r with
      | some (Node.file bs) =>
        match utf8Decode bs with
        | some cps => (Except.ok (fixNewlines cps), fs1)
        | none => (Except.error Err.decodeErr, fs1)
      | _ => (Except.error Err.other, fs1)

/-- app.resources.ozfs_resource: remove one leading slash if present,
then delegate to read_file. -/
def ozfs_resource (fs : FS) (root : AbsPath) (p : List Char) :
    Except Err (List Nat) × FS :=
  read_file fs root
    (match p with
      | '/' :: rest => rest
      | _ => p)

/-- app.tools.read_text_file: delegates to read_file unchanged. -/
def read_text_file (fs : FS) (root : AbsPath) (p : List Char) :
    Except Err (List Nat) × FS :=
  read_file fs root p

/-- No prefix of the path is an existing symbolic link. -/
def NoLinkPre (fs : FS) (p : AbsPath) : Prop :=
  ∀ q ∈ p.inits, optIsLink (lookupRaw fs q) = false

/-- Every component is a plain name (not empty, dot, or dot-dot). -/
def CleanAbs (p : AbsPath) : Prop :=
  ∀ c ∈ p, c ≠ [] ∧ c ≠ dot ∧ c ≠ dotdot

/-- All keys of the filesystem are nonempty paths of plain names. -/
def CleanFS (fs : FS) : Prop :=
  ∀ kv ∈ fs, kv.1 ≠ [] ∧ ∀ c ∈ kv.1, c ≠ [] ∧ c ≠ dot ∧ c ≠ dotdot

/-- The filesystem has no duplicate keys. -/
def NodupKeys (fs : FS) : Prop :=
  (fs.map Prod.fst).Nodup

/-- The filesystem contains no special files. -/
def NoSpecial (fs : FS) : Prop :=
  ∀ kv ∈ fs, isSpecialN kv.2 = false

instance instDecNoLinkPre (fs : FS) (p : AbsPath) : Decidable (NoLinkPre fs p) :=
  inferInstanceAs (Decidable (∀ q ∈ p.inits, optIsLink (lookupRaw fs q) = false))

instance instDecCleanAbs (p : AbsPath) : Decidable (CleanAbs p) :=
  inferInstanceAs (Decidable (∀ c ∈ p, c ≠ [] ∧ c ≠ dot ∧ c ≠ dotdot))

instance instDecCleanFS (fs : FS) : Decidable (CleanFS fs) :=
  inferInstanceAs
    (Decidable (∀ kv ∈ fs, kv.1 ≠ [] ∧ ∀ c ∈ kv.1, c ≠ [] ∧ c ≠ dot ∧ c ≠ dotdot))

instance instDecNodupKeys (fs : FS) : Decidable (NodupKeys fs) :=
  inferInstanceAs (Decidable (fs.map Prod.fst).Nodup)

instance instDecNoSpecial (fs : FS) : Decidable (NoSpecial fs) :=
  inferInstanceAs (Decidable (∀ kv ∈ fs, isSpecialN kv.2 = false))

/-- fs2 extends fs1 only by turning absent paths into directories. -/
def DirExt (fs1 fs2 : FS) : Prop :=
  ∀ q, lookupRaw fs2 q = lookupRaw fs1 q ∨
    (lookupRaw fs1 q = none ∧ lookupRaw fs2 q = some Node.dir)

/-- Example state: a sandbox root with a sibling directory whose name
textually extends the root's name. -/
def exFS2 : FS :=
  [([cs "a"], Node.dir),
   ([cs "a", cs "sandbox"], Node.dir),
   ([cs "a", cs "sandbox_sibling"], Node.dir),
   ([cs "a", cs "sandbox_sibling", cs "secret.txt"], Node.file [65])]

/-- The sandbox root of exFS2. -/
def exRoot2 : AbsPath := [cs "a", cs "sandbox"]

/-- A one-component sandbox root used by several example states. -/
def exRootS : AbsPath := [cs "s"]

/-- Example state: the sandbox contains a dangling symlink (target absent). -/
def exFS3 : FS :=
  [([cs "s"], Node.dir),
   ([cs "s", cs "link"], Node.symlink false [cs "missing"])]

/-- Example state: the sandbox contains a symlink whose target exists. -/
def exFSW3 : FS :=
  [([cs "s"], Node.dir),
   ([cs "s", cs "t"], Node.file [65]),
   ([cs "s", cs "link"], Node.symlink false [cs "t"])]

/-- Example state: the configured sandbox root traverses a symlinked
directory, so the configured path differs from its canonicalized form. -/
def exFS4 : FS :=
  [([cs "a"], Node.dir),
   ([cs "a", cs "link"], Node.symlink true [cs "a", cs "real"]),
   ([cs "a", cs "real"], Node.dir),
   ([cs "a", cs "real", cs "sandbox"], Node.dir),
   ([cs "a", cs "real", cs "sandbox", cs "x"], Node.file [66])]

/-- The configured (non-canonical) sandbox root of exFS4. -/
def exRoot4 : AbsPath := [cs "a", cs "link", cs "sandbox"]

/-- Example state: an empty two-level sandbox. -/
def exFS5 : FS := [([cs "srv"], Node.dir), ([cs "srv", cs "box"], Node.dir)]

/-- The sandbox root of exFS5. -/
def exRoot5 : AbsPath := [cs "srv", cs "box"]

/-- Example state: a sandbox with a directory, two files and a symlink. -/
def exFS6 : FS :=
  [([cs "s"], Node.dir),
   ([cs "s", cs "b.txt"], Node.file [65, 66]),
   ([cs "s", cs "a"], Node.dir),
   ([cs "s", cs "link"], Node.symlink false [cs "a"]),
   ([cs "s", cs "c.txt"], Node.file [])]

/-- Example state: a sandbox with a UTF-8 file, a directory and a file of
invalid UTF-8 bytes. -/
def exFS7 : FS :=
  [([cs "s"], Node.dir),
   ([cs "s", cs "f.txt"], Node.file [72, 105]),
   ([cs "s", cs "d"], Node.dir),
   ([cs "s", cs "bad"], Node.file [255])]

/-- Example state: a sandbox containing a FIFO (mode 0o010000), a socket
(mode 0o140000) and a directory. -/
def exFS10 : FS :=
  [([cs "s"], Node.dir),
   ([cs "s", cs "fifo"], Node.special 4096 7),
   ([cs "s", cs "sock"], Node.special 49152 5),
   ([cs "s", cs "d"], Node.dir)]

/-- Example state: the sandbox root itself is missing and gets created. -/
def exFS8 : FS := [([cs "srv"], Node.dir)]

/-- The entries that listing the root of exFS6 returns. -/
def exEs6 : List Entry :=
  [{ name := cs "a", type := EKind.directory, path := [cs "a"], size := none },
   { name := cs "b.txt", type := EKind.file, path := [cs "b.txt"], size := some 2 },
   { name := cs "c.txt", type := EKind.file, path := [cs "c.txt"], size := some 0 }]

/-- The entries that listing the root of exFS10 returns: the FIFO is
reported as a file with its size, while the socket's mode code contains
the 0o040000 bit and so it is reported as a directory without a size. -/
def exEs10 : List Entry :=
  [{ name := cs "d", type := EKind.directory, path := [cs "d"], size := none },
   { name := cs "fifo", type := EKind.file, path := [cs "fifo"], size := some 7 },
   { name := cs "sock", type := EKind.directory, path := [cs "sock"], size := none }]

theorem dropLast_pre {α : Type} (l : List α) : l.dropLast <+: l :=
  List.dropLast_prefix l

theorem isPre_iff : ∀ a b : AbsPath, isPre a b = true ↔ a <+: b
  | [], b => by simp [isPre]
  | a :: as, [] => by simp [isPre]
  | a :: as, b :: bs => by
    simp only [isPre, List.cons_prefix_cons]
    split
    · next h => simpa [h] using isPre_iff as bs
    · next h => simp [h]

theorem noLinkPre_mono (fs : FS) (p q : AbsPath) (h : NoLinkPre fs p)
    (hq : q <+: p) : NoLinkPre fs q :=
  fun s hs => h s ((List.mem_inits _ _).mpr (((List.mem_inits _ _).mp hs).trans hq))

theorem cleanAbs_mono (p q : AbsPath) (h : CleanAbs p) (hq : q <+: p) :
    CleanAbs q :=
  fun c hc => h c (hq.sublist.subset hc)

theorem optIsLink_false_of_ne (o : Option Node)
    (h : ∀ b t, o ≠ some (Node.symlink b t)) : optIsLink o = false := by
  cases o with
  | none => rfl
  | some nd => cases nd <;> first | rfl | exact absurd rfl (h _ _)

theorem noLinkPre_nil (fs : FS) : NoLinkPre fs [] := by
  intro s hs
  simp only [List.inits, List.mem_singleton] at hs
  subst hs
  simp [optIsLink, lookupRaw]

theorem resolveAux_inv (fs : FS) :
    ∀ fuel acc rest r, resolveAux fs fuel acc rest = some r →
      NoLinkPre fs acc → CleanAbs acc → NoLinkPre fs r ∧ CleanAbs r := by
  intro fuel
  induction fuel with
  | zero =>
    intro acc rest r h hN hC
    cases rest with
    | nil => simp only [resolveAux, Option.some.injEq] at h; subst h; exact ⟨hN, hC⟩
    | cons c rs => simp [resolveAux] at h
  | succ f ih =>
    intro acc rest r h hN hC
    cases rest with
    | nil => simp only [resolveAux, Option.some.injEq] at h; subst h; exact ⟨hN, hC⟩
    | cons c rs =>
      rw [resolveAux] at h
      split at h
      · exact ih _ _ _ h hN hC
      · split at h
        · exact ih _ _ _ h (noLinkPre_mono _ _ _ hN (dropLast_pre acc))
            (cleanAbs_mono _ _ hC (dropLast_pre acc))
        · split at h
          · next tabs tgt heq =>
            refine ih _ _ _ h ?_ ?_
            · cases tabs
              · simpa using hN
              · simpa using noLinkPre_nil fs
            · cases tabs
              · simpa using hC
              · intro x hx
                simp at hx
          · next hne =>
            refine ih _ _ _ h ?_ ?_
            · intro s hs
              rcases List.prefix_concat_iff.mp ((List.mem_inits _ _).mp hs) with hs1 | hs1
              · subst hs1
                exact optIsLink_false_of_ne _ (fun b t hbt => hne b t hbt)
              · exact hN s ((List.mem_inits _ _).mpr hs1)
            · intro x hx
              rcases List.mem_append.mp hx with hx1 | hx1
              · exact hC x hx1
              · rw [List.mem_singleton] at hx1
                subst hx1
                refine ⟨?_, ?_, ?_⟩ <;> intro hcon <;> simp_all

theorem resolveAux_fix (fs : FS) :
    ∀ rest fuel acc, rest.length < fuel → CleanAbs rest →
      NoLinkPre fs (acc ++ rest) →
      resolveAux fs fuel acc rest = some (acc ++ rest) := by
  intro rest
  induction rest with
  | nil =>
    intro fuel acc _ _ _
    cases fuel <;> simp [resolveAux]
  | cons c rs ih =>
    intro fuel acc hf hC hN
    cases fuel with
    | zero => simp at hf
    | succ f =>
      rw [resolveAux]
      have hc := hC c (by simp)
      rw [if_neg (by push_neg; exact ⟨hc.1, hc.2.1⟩), if_neg hc.2.2]
      have hpre : acc ++ [c] <+: acc ++ c :: rs := by
        refine ⟨rs, ?_⟩
        simp
      have hns : optIsLink (lookupRaw fs (acc ++ [c])) = false :=
        hN (acc ++ [c]) ((List.mem_inits _ _).mpr hpre)
      have step : resolveAux fs f (acc ++ [c]) rs = some (acc ++ c :: rs) := by
        have := ih f (acc ++ [c]) (by simp at hf ⊢; omega)
          (fun x hx => hC x (List.mem_cons_of_mem _ hx))
          (by rw [List.append_assoc]; simpa using hN)
        simpa using this
      cases hl : lookupRaw fs (acc ++ [c]) with
      | none => exact step
      | some nd =>
        cases nd with
        | symlink b t => rw [hl] at hns; simp [optIsLink] at hns
        | file bs => exact step
        | dir => exact step
        | special mode sz => exact step

theorem resolve_fix (fs : FS) (p : AbsPath) (hC : CleanAbs p)
    (hN : NoLinkPre fs p) : resolve fs p = some p := by
  have : p.length < fuelFor fs p := by
    simp only [fuelFor]
    omega
  simpa using resolveAux_fix fs p (fuelFor fs p) [] this hC hN

theorem resolve_idem (fs : FS) (p r : AbsPath) (h : resolve fs p = some r) :
    NoLinkPre fs r ∧ CleanAbs r ∧ resolve fs r = some r := by
  have hinv := resolveAux_inv fs (fuelFor fs p) [] p r h (noLinkPre_nil fs)
    (by intro c hc; simp at hc)
  exact ⟨hinv.1, hinv.2, resolve_fix fs r hinv.2 hinv.1⟩

theorem statNode_fix (fs : FS) (r : AbsPath) (h : resolve fs r = some r) :
    statNode fs r = lookupRaw fs r := by
  simp [statNode, h]

theorem lstat_child (fs : FS) (r : AbsPath) (n : Comp) (h : resolve fs r = some r)
    (h1 : n ≠ []) (h2 : n ≠ dot) (h3 : n ≠ dotdot) :
    lstatNode fs (r ++ [n]) = lookupRaw fs (r ++ [n]) := by
  simp only [lstatNode, List.getLast?_concat, List.dropLast_concat]
  rw [if_neg (by push_neg; exact ⟨h1, h2, h3⟩), h]
  rfl

theorem walkGo_err_kind (fs : FS) (sres : AbsPath) :
    ∀ fuel cur e, walkGo fs sres fuel cur = Except.error e → e = Err.symlink := by
  intro fuel
  induction fuel with
  | zero => intro cur e h; simp [walkGo] at h
  | succ f ih =>
    intro cur e h
    rw [walkGo] at h
    split at h
    · simp at h
    · split at h
      · exact (Except.error.inj h).symm
      · split at h
        · simp at h
        · exact ih _ _ h

theorem walkGo_of_bad (fs : FS) (sres : AbsPath) :
    ∀ fuel cur q, q ∈ chainGo sres fuel cur → existsF fs q = true →
      isSymlinkF fs q = true → walkGo fs sres fuel cur = Except.error Err.symlink := by
  intro fuel
  induction fuel with
  | zero => intro cur q hq _ _; simp [chainGo] at hq
  | succ f ih =>
    intro cur q hq hex hsy
    rw [chainGo] at hq
    split at hq
    · simp at hq
    · next hne =>
      rcases List.mem_cons.mp hq with hq1 | hq1
      · subst hq1
        rw [walkGo, if_neg hne, if_pos (by rw [hex, hsy]; rfl)]
      · split at hq1
        · simp at hq1
        · next hnil =>
          rw [walkGo, if_neg hne]
          by_cases hbad : (existsF fs cur && isSymlinkF fs cur) = true
          · rw [if_pos hbad]
          · rw [if_neg hbad, if_neg hnil]
            exact ih _ _ hq1 hex hsy

theorem walkGo_bad_of_err (fs : FS) (sres : AbsPath) :
    ∀ fuel cur, walkGo fs sres fuel cur = Except.error Err.symlink →
      ∃ q ∈ chainGo sres fuel cur, existsF fs q = true ∧ isSymlinkF fs q = true := by
  intro fuel
  induction fuel with
  | zero => intro cur h; simp [walkGo] at h
  | succ f ih =>
    intro cur h
    rw [walkGo] at h
    split at h
    · simp at h
    · next hne =>
      split at h
      · next hbad =>
        rw [Bool.and_eq_true] at hbad
        rcases hbad with ⟨h1, h2⟩
        refine ⟨cur, ?_, h1, h2⟩
        rw [chainGo, if_neg hne]
        exact List.mem_cons_self _ _
      · next hbad =>
        split at h
        · simp at h
        · next hnil =>
          rcases ih _ h with ⟨q, hq, hq1, hq2⟩
          refine ⟨q, ?_, hq1, hq2⟩
          rw [chainGo, if_neg hne, if_neg hnil]
          exact List.mem_cons_of_mem _ hq

theorem chainGo_below (sres : AbsPath) :
    ∀ fuel parts q, q ∈ chainGo sres fuel (sres ++ parts) →
      sres <+: q ∧ q ≠ sres := by
  intro fuel
  induction fuel with
  | zero => intro parts q hq; simp [chainGo] at hq
  | succ f ih =>
    intro parts q hq
    rw [chainGo] at hq
    split at hq
    · simp at hq
    · next hne =>
      have hp : parts ≠ [] := by
        intro hh
        subst hh
        simp at hne
      rcases List.mem_cons.mp hq with hq1 | hq1
      · subst hq1
        exact ⟨List.prefix_append sres parts, hne⟩
      · split at hq1
        · simp at hq1
        · rw [List.dropLast_append_of_ne_nil sres hp] at hq1
          exact ih parts.dropLast q hq1

theorem validate_ok_inv (fs : FS) (root : AbsPath) (p : List Char) (r : AbsPath)
    (fs1 : FS) (h : validate_path fs root p = (Except.ok r, fs1)) :
    mkdirp fs root = some fs1 ∧
    ∃ sres, resolve fs1 root = some sres ∧ sres <+: r ∧
      resolve fs1 (joinAbs root (stripLeading p)) = some r ∧
      walkCheck fs1 sres (joinAbs root (stripLeading p)) = Except.ok () := by
  unfold validate_path validateCore at h
  split at h
  · simp at h
  · next fs1' hmk =>
    split at h
    · simp at h
    · next sres hres =>
      split at h
      · simp at h
      · next hwalk =>
        split at h
        · simp at h
        · next full hfull =>
          split at h
          · next hpre =>
            rcases Prod.mk.injEq .. ▸ h with h'
            have h1 : full = r := Except.ok.inj (congrArg Prod.fst h)
            have h2 : fs1' = fs1 := congrArg Prod.snd h
            subst h1
            subst h2
            exact ⟨hmk, sres, hres, (isPre_iff sres full).mp hpre, hfull, hwalk⟩
          · simp at h

theorem lookupRaw_cons (k : AbsPath) (v : Node) (fs : FS) (q : AbsPath)
    (hq : q ≠ []) :
    lookupRaw ((k, v) :: fs) q = if q = k then some v else lookupRaw fs q := by
  simp only [lookupRaw, if_neg hq]
  by_cases hk : k = q
  · subst hk
    rw [List.find?_cons_of_pos _ (by simp), if_pos rfl]
  · rw [List.find?_cons_of_neg _ (by simp [hk]), if_neg (fun hh => hk hh.symm)]

theorem resolveAux_ext (fs fs' : FS) (hext : DirExt fs fs') :
    ∀ fuel acc rest, resolveAux fs' fuel acc rest = resolveAux fs fuel acc rest := by
  intro fuel
  induction fuel with
  | zero => intro acc rest; cases rest <;> simp [resolveAux]
  | succ f ih =>
    intro acc rest
    cases rest with
    | nil => simp [resolveAux]
    | cons c rs =>
      rw [resolveAux, resolveAux]
      by_cases h1 : c = [] ∨ c = dot
      · rw [if_pos h1, if_pos h1]
        exact ih _ _
      · rw [if_neg h1, if_neg h1]
        by_cases h2 : c = dotdot
        · rw [if_pos h2, if_pos h2]
          exact ih _ _
        · rw [if_neg h2, if_neg h2]
          rcases hext (acc ++ [c]) with heq | ⟨hnone, hdir⟩
          · rw [heq]
            cases hl : lookupRaw fs (acc ++ [c]) with
            | none => exact ih _ _
            | some nd => cases nd <;> exact ih _ _
          · rw [hdir, hnone]
            exact ih _ _

theorem dirExt_budget (fs : FS) (k : AbsPath) :
    linkBudget ((k, Node.dir) :: fs) = linkBudget fs := rfl

theorem resolve_ext (fs fs' : FS) (hext : DirExt fs fs')
    (hb : linkBudget fs' = linkBudget fs) (p : AbsPath) :
    resolve fs' p = resolve fs p := by
  simp only [resolve, fuelFor, hb]
  exact resolveAux_ext fs fs' hext _ _ _

theorem dirExt_refl (fs : FS) : DirExt fs fs := fun q => Or.inl rfl

theorem mkdirpGo_budget :
    ∀ fuel fs p fs', mkdirpGo fuel fs p = some fs' →
      linkBudget fs' = linkBudget fs := by
  intro fuel
  induction fuel with
  | zero =>
    intro fs p fs' h
    cases p with
    | nil => simp only [mkdirpGo, Option.some.injEq] at h; subst h; rfl
    | cons a q => simp [mkdirpGo] at h
  | succ f ih =>
    intro fs p fs' h
    cases p with
    | nil => simp only [mkdirpGo, Option.some.injEq] at h; subst h; rfl
    | cons a q =>
      rw [mkdirpGo] at h
      split at h
      · rcases Option.some.inj h with h1
        subst h1
        rfl
      · exact absurd h (by simp)
      · split at h
        · exact absurd h (by simp)
        · split at h
          · exact absurd h (by simp)
          · next fs1 hrec =>
            split at h
            · exact absurd h (by simp)
            · split at h
              · rcases Option.some.inj h with h1
                subst h1
                rw [dirExt_budget]
                exact ih fs _ fs1 hrec
              · exact absurd h (by simp)

theorem mkdirpGo_entries :
    ∀ fuel fs p fs', mkdirpGo fuel fs p = some fs' →
      ∀ kv ∈ fs', kv ∈ fs ∨ kv.2 = Node.dir := by
  intro fuel
  induction fuel with
  | zero =>
    intro fs p fs' h kv hkv
    cases p with
    | nil =>
      simp only [mkdirpGo, Option.some.injEq] at h
      subst h
      exact Or.inl hkv
    | cons a q => simp [mkdirpGo] at h
  | succ f ih =>
    intro fs p fs' h kv hkv
    cases p with
    | nil =>
      simp only [mkdirpGo, Option.some.injEq] at h
      subst h
      exact Or.inl hkv
    | cons a q =>
      rw [mkdirpGo] at h
      split at h
      · rcases Option.some.inj h with h1
        subst h1
        exact Or.inl hkv
      · exact absurd h (by simp)
      · split at h
        · exact absurd h (by simp)
        · split at h
          · exact absurd h (by simp)
          · next fs1 hrec =>
            split at h
            · exact absurd h (by simp)
            · split at h
              · rcases Option.some.inj h with h1
                subst h1
                rcases List.mem_cons.mp hkv with h2 | h2
                · subst h2
                  exact Or.inr rfl
                · exact ih fs _ fs1 hrec kv h2
              · exact absurd h (by simp)

theorem getLast_cons_ex (a : Comp) (q : AbsPath) :
    ∃ c, (a :: q).getLast? = some c := by
  cases hgl : (a :: q).getLast? with
  | some c => exact ⟨c, rfl⟩
  | none =>
    rw [List.getLast?_eq_none_iff] at hgl
    exact absurd hgl (by simp)

theorem mkdirp_key_absent (fs : FS) (a : Comp) (q : AbsPath) (rd : AbsPath)
    (c : Comp) (hglast : (a :: q).getLast? = some c)
    (hcc : c ≠ [] ∧ c ≠ dot ∧ c ≠ dotdot)
    (hlst : lstatNode fs (a :: q) = none)
    (hres : resolve fs (a :: q).dropLast = some rd) :
    lookupRaw fs (rd ++ [c]) = none := by
  rw [lstatNode, hglast] at hlst
  dsimp only at hlst
  rw [if_neg (by push_neg; exact hcc), hres] at hlst
  simpa using hlst

theorem mkdirpGo_ext :
    ∀ fuel fs p fs', CleanAbs p → mkdirpGo fuel fs p = some fs' →
      DirExt fs fs' := by
  intro fuel
  induction fuel with
  | zero =>
    intro fs p fs' hC h
    cases p with
    | nil =>
      simp only [mkdirpGo, Option.some.injEq] at h
      subst h
      exact dirExt_refl fs
    | cons a q => simp [mkdirpGo] at h
  | succ f ih =>
    intro fs p fs' hC h
    cases p with
    | nil =>
      simp only [mkdirpGo, Option.some.injEq] at h
      subst h
      exact dirExt_refl fs
    | cons a q =>
      rw [mkdirpGo] at h
      split at h
      · rcases Option.some.inj h with h1
        subst h1
        exact dirExt_refl fs
      · exact absurd h (by simp)
      · next hstat =>
        split at h
        · exact absurd h (by simp)
        · next hlst =>
          split at h
          · exact absurd h (by simp)
          · next fs1 hrec =>
            split at h
            · exact absurd h (by simp)
            · next rd hrd =>
              split at h
              · rcases Option.some.inj h with h1
                subst h1
                have hCd : CleanAbs (a :: q).dropLast :=
                  cleanAbs_mono _ _ hC (dropLast_pre _)
                have hext1 : DirExt fs fs1 := ih fs _ fs1 hCd hrec
                have hbud : linkBudget fs1 = linkBudget fs :=
                  mkdirpGo_budget f fs _ fs1 hrec
                have hres : resolve fs (a :: q).dropLast = some rd := by
                  rw [← resolve_ext fs fs1 hext1 hbud]
                  exact hrd
                rcases getLast_cons_ex a q with ⟨c, hglast⟩
                have hcmem : c ∈ (a :: q) := List.mem_of_getLast?_eq_some hglast
                have hcc := hC c hcmem
                have hlst' : lstatNode fs (a :: q) = none :=
                  Option.not_isSome_iff_eq_none.mp hlst
                have hnone : lookupRaw fs (rd ++ [c]) = none :=
                  mkdirp_key_absent fs a q rd c hglast hcc hlst' hres
                have hgd : (a :: q).getLastD [] = c := by
                  rw [List.getLastD_eq_getLast?, hglast]
                  rfl
                intro x
                by_cases hx : x = []
                · subst hx
                  exact Or.inl (by simp [lookupRaw])
                · rw [lookupRaw_cons _ _ _ _ hx]
                  by_cases hk : x = rd ++ [(a :: q).getLastD []]
                  · rw [if_pos hk]
                    refine Or.inr ⟨?_, rfl⟩
                    rw [hk, hgd]
                    exact hnone
                  · rw [if_neg hk]
                    exact hext1 x
              · exact absurd h (by simp)

theorem mkdirpGo_below :
    ∀ fuel fs p fs', CleanAbs p → NoLinkPre fs p → mkdirpGo fuel fs p = some fs' →
      ∀ x, lookupRaw fs' x ≠ lookupRaw fs x → x <+: p := by
  intro fuel
  induction fuel with
  | zero =>
    intro fs p fs' hC hN h x hx
    cases p with
    | nil =>
      simp only [mkdirpGo, Option.some.injEq] at h
      subst h
      exact absurd rfl hx
    | cons a q => simp [mkdirpGo] at h
  | succ f ih =>
    intro fs p fs' hC hN h x hx
    cases p with
    | nil =>
      simp only [mkdirpGo, Option.some.injEq] at h
      subst h
      exact absurd rfl hx
    | cons a q =>
      rw [mkdirpGo] at h
      split at h
      · rcases Option.some.inj h with h1
        subst h1
        exact absurd rfl hx
      · exact absurd h (by simp)
      · next hstat =>
        split at h
        · exact absurd h (by simp)
        · next hlst =>
          split at h
          · exact absurd h (by simp)
          · next fs1 hrec =>
            split at h
            · exact absurd h (by simp)
            · next rd hrd =>
              split at h
              · rcases Option.some.inj h with h1
                subst h1
                have hCd : CleanAbs (a :: q).dropLast :=
                  cleanAbs_mono _ _ hC (dropLast_pre _)
                have hNd : NoLinkPre fs (a :: q).dropLast :=
                  noLinkPre_mono _ _ _ hN (dropLast_pre _)
                have hext1 : DirExt fs fs1 := mkdirpGo_ext f fs _ fs1 hCd hrec
                have hbud : linkBudget fs1 = linkBudget fs :=
                  mkdirpGo_budget f fs _ fs1 hrec
                have hres : resolve fs (a :: q).dropLast = some rd := by
                  rw [← resolve_ext fs fs1 hext1 hbud]
                  exact hrd
                have hfix : resolve fs (a :: q).dropLast = some (a :: q).dropLast :=
                  resolve_fix fs _ hCd hNd
                have hrdeq : rd = (a :: q).dropLast := by
                  rw [hres] at hfix
                  exact Option.some.inj hfix
                rcases getLast_cons_ex a q with ⟨c, hglast⟩
                have hgd : (a :: q).getLastD [] = c := by
                  rw [List.getLastD_eq_getLast?, hglast]
                  rfl
                have hkey : rd ++ [(a :: q).getLastD []] = a :: q := by
                  rw [hgd, hrdeq]
                  exact List.dropLast_append_getLast? c hglast
                by_cases hxnil : x = []
                · subst hxnil
                  exact absurd (by simp [lookupRaw]) hx
                · rw [lookupRaw_cons _ _ _ _ hxnil] at hx
                  by_cases hk : x = rd ++ [(a :: q).getLastD []]
                  · rw [hk, hkey]
                  · rw [if_neg hk] at hx
                    by_cases hch : lookupRaw fs1 x = lookupRaw fs x
                    · exact absurd hch hx
                    · exact (ih fs _ fs1 hCd hNd hrec x hch).trans (dropLast_pre _)
              · exact absurd h (by simp)

theorem mkdirp_ext (fs : FS) (p : AbsPath) (fs' : FS) (hC : CleanAbs p)
    (h : mkdirp fs p = some fs') : DirExt fs fs' :=
  mkdirpGo_ext _ fs p fs' hC h

theorem mkdirp_noop (fs : FS) (p : AbsPath) (h : statNode fs p = some Node.dir) :
    mkdirp fs p = some fs := by
  cases p with
  | nil => rfl
  | cons a q =>
    show mkdirpGo ((a :: q).length + 1) fs (a :: q) = some fs
    simp only [List.length_cons]
    rw [mkdirpGo, h]

theorem stripLeading_cons_slash (p : List Char) :
    stripLeading ('/' :: p) = stripLeading p := by
  cases p with
  | nil => simp [stripLeading, List.dropWhile]
  | cons c rest =>
    by_cases hc : c = '/'
    · subst hc
      simp [stripLeading, List.dropWhile]
    · have hb : (c == '/') = false := by simp [hc]
      simp [stripLeading, List.dropWhile, hc, hb]

theorem validate_slash (fs : FS) (root : AbsPath) (p : List Char) :
    validate_path fs root ('/' :: p) = validate_path fs root p := by
  unfold validate_path
  rw [stripLeading_cons_slash]

theorem read_file_slash (fs : FS) (root : AbsPath) (p : List Char) :
    read_file fs root ('/' :: p) = read_file fs root p := by
  unfold read_file
  rw [validate_slash]

/-- C1: whenever validate_path succeeds, the returned resolved path has the
canonicalized sandbox root as a component-wise prefix: it is the canonical
root itself or a descendant of it, never a path outside the sandbox. -/
theorem claim1_validate_contained (fs : FS) (root : AbsPath) (p : List Char)
    (r : AbsPath) (fs1 : FS) (h : validate_path fs root p = (Except.ok r, fs1)) :
    ∃ sres, resolve fs1 root = some sres ∧ sres <+: r := by
  rcases validate_ok_inv fs root p r fs1 h with ⟨-, sres, h1, h2, -, -⟩
  exact ⟨sres, h1, h2⟩

theorem claim1_wit :
    validate_path exFS7 exRootS (cs "f.txt")
        = (Except.ok [cs "s", cs "f.txt"], exFS7) ∧
      ∃ sres, resolve exFS7 exRootS = some sres ∧ sres <+: [cs "s", cs "f.txt"] :=
  ⟨by decide, claim1_validate_contained exFS7 exRootS (cs "f.txt") _ _ (by decide)⟩

/-- C2: the containment check is a segment-aware prefix test.  Whenever
the candidate canonicalizes into a sibling directory whose name textually
extends the canonical root's final name, validate_path fails (with the
escape error, or with the symlink error if the walk fired first); and on a
concrete state with root `/a/sandbox`, `validate("../sandbox_sibling/secret.txt")`
fails with exactly the escape error. -/
theorem claim2_sibling :
    (∀ (fs : FS) (root : AbsPath) (p : List Char) (fs1 : FS)
        (sres d res : AbsPath) (nm nm2 : Comp) (rest2 : AbsPath),
      mkdirp fs root = some fs1 →
      resolve fs1 root = some sres →
      sres = d ++ [nm] →
      resolve fs1 (joinAbs root (stripLeading p)) = some res →
      res = d ++ nm2 :: rest2 →
      nm ≠ nm2 → nm <+: nm2 →
      (validate_path fs root p).1 = Except.error Err.escape ∨
        (validate_path fs root p).1 = Except.error Err.symlink) ∧
      validate_path exFS2 exRoot2 (cs "../sandbox_sibling/secret.txt")
        = (Except.error Err.escape, exFS2) := by
  constructor
  · intro fs root p fs1 sres d res nm nm2 rest2 hmk hres hsd hcand hrd hne _hext
    have hnp : ¬ (sres <+: res) := by
      rw [hsd, hrd]
      intro hp
      rw [List.prefix_append_right_inj] at hp
      rw [List.cons_prefix_cons] at hp
      exact hne hp.1
    unfold validate_path validateCore
    rw [hmk]
    dsimp only
    rw [hres]
    dsimp only
    cases hw : walkCheck fs1 sres (joinAbs root (stripLeading p)) with
    | error e =>
      right
      have he : e = Err.symlink := walkGo_err_kind fs1 sres _ _ e hw
      subst he
      rfl
    | ok u =>
      left
      dsimp only
      rw [hcand]
      dsimp only
      rw [if_neg (fun hb => hnp ((isPre_iff sres res).mp hb))]
  · decide

theorem claim2_wit :
    (validate_path exFS2 exRoot2 (cs "../sandbox_sibling/x")).1
        = Except.error Err.escape ∨
      (validate_path exFS2 exRoot2 (cs "../sandbox_sibling/x")).1
        = Except.error Err.symlink :=
  claim2_sibling.1 exFS2 exRoot2 (cs "../sandbox_sibling/x") exFS2
    [cs "a", cs "sandbox"] [cs "a"]
    [cs "a", cs "sandbox_sibling", cs "x"] (cs "sandbox") (cs "sandbox_sibling")
    [cs "x"] (by decide) (by decide) (by decide) (by decide) (by decide)
    (by decide) (by decide)

/-- C5: validate_path treats a leading slash as sandbox-relative: its
behaviour on any input starting with a slash equals its behaviour on that
input with one leading slash removed, and `validate("/etc/passwd")`
resolves to `SandboxRoot/etc/passwd` inside the sandbox. -/
theorem claim5_leading_slash :
    (∀ (fs : FS) (root : AbsPath) (p : List Char),
        validate_path fs root ('/' :: p) = validate_path fs root p) ∧
      validate_path exFS5 exRoot5 (cs "/etc/passwd")
        = (Except.ok (exRoot5 ++ [cs "etc", cs "passwd"]), exFS5) :=
  ⟨validate_slash, by decide⟩

/-- C9: the ozfs resource layer is behaviourally identical to read_file on
every path argument: its removal of one leading slash is redundant because
validate_path itself strips leading slashes. -/
theorem claim9_resource_equiv (fs : FS) (root : AbsPath) (p : List Char) :
    ozfs_resource fs root p = read_file fs root p := by
  cases p with
  | nil => rfl
  | cons c rest =>
    by_cases hc : c = '/'
    · subst hc
      show read_file fs root rest = read_file fs root ('/' :: rest)
      rw [read_file_slash]
    · unfold ozfs_resource
      split
      · next heq =>
        rw [List.cons.injEq] at heq
        exact absurd heq.1 hc
      · rfl

theorem dropWhile_head_not (f : Char → Bool) :
    ∀ (l : List Char) (a : Char), (List.dropWhile f l).head? = some a →
      f a = false := by
  intro l
  induction l with
  | nil => intro a h; simp [List.dropWhile] at h
  | cons c rest ih =>
    intro a h
    rw [List.dropWhile_cons] at h
    split at h
    · exact ih a h
    · next hfc =>
      rw [List.head?_cons, Option.some.injEq] at h
      subst h
      exact Bool.eq_false_iff.mpr hfc

theorem stripLeading_no_slash (p : List Char) :
    (stripLeading p).head? ≠ some '/' := by
  unfold stripLeading
  split
  · intro h
    have := dropWhile_head_not (fun c => c == '/') p '/' h
    simp at this
  · next h => exact h

theorem joinAbs_strip (root : AbsPath) (p : List Char) :
    joinAbs root (stripLeading p) = root ++ parseRel (stripLeading p) := by
  unfold joinAbs
  rw [if_neg (stripLeading_no_slash p)]

/-- C3 counterexample: the sandbox of exFS3 contains a dangling symlink
`link`; `link` is an ancestor of the candidate and is a symlink under an
lstat-style check, yet validate_path succeeds (returning the link's
resolved target) instead of failing with the symlink error, because the
walk guards the symlink test with a following exists() that is false for a
dangling link. -/
theorem claim3_counter :
    validate_path exFS3 exRootS (cs "link")
        = (Except.ok [cs "s", cs "missing"], exFS3) ∧
      isSymlinkF exFS3 [cs "s", cs "link"] = true ∧
      [cs "s", cs "link"]
        ∈ chainList exRootS (joinAbs exRootS (stripLeading (cs "link"))) := by
  refine ⟨by decide, by decide, by decide⟩

/-- C3 (amended): if some inspected ancestor on the walk's chain is a
symlink whose target exists (so the following exists() is true), then
validate_path fails with the symlink-specific error, which is distinct
from the escape error. -/
theorem claim3_symlink_existing (fs : FS) (root : AbsPath) (p : List Char)
    (fs1 : FS) (sres q : AbsPath)
    (hmk : mkdirp fs root = some fs1)
    (hres : resolve fs1 root = some sres)
    (hq : q ∈ chainList sres (joinAbs root (stripLeading p)))
    (hex : existsF fs1 q = true) (hsy : isSymlinkF fs1 q = true) :
    validate_path fs root p = (Except.error Err.symlink, fs1) := by
  unfold validate_path validateCore
  rw [hmk]
  dsimp only
  rw [hres]
  dsimp only
  have hw : walkCheck fs1 sres (joinAbs root (stripLeading p))
      = Except.error Err.symlink :=
    walkGo_of_bad fs1 sres _ _ q hq hex hsy
  rw [hw]

theorem claim3_wit :
    validate_path exFSW3 exRootS (cs "link")
      = (Except.error Err.symlink, exFSW3) :=
  claim3_symlink_existing exFSW3 exRootS (cs "link") exFSW3 exRootS
    [cs "s", cs "link"] (by decide) (by decide) (by decide) (by decide)
    (by decide)

/-- C4 counterexample: in exFS4 the configured sandbox root passes through
the symlink `/a/link`, so the root is not canonical; validating the
in-sandbox path `x` (whose canonical form lies inside the canonical root)
fails with the symlink error because the walk runs past the configured
root and inspects the root's own ancestry. -/
theorem claim4_counter :
    validate_path exFS4 exRoot4 (cs "x") = (Except.error Err.symlink, exFS4) ∧
      optIsLink (lookupRaw exFS4 [cs "a", cs "link"]) = true ∧
      resolve exFS4 (joinAbs exRoot4 (stripLeading (cs "x")))
        = some [cs "a", cs "real", cs "sandbox", cs "x"] ∧
      resolve exFS4 exRoot4 = some [cs "a", cs "real", cs "sandbox"] ∧
      isPre [cs "a", cs "real", cs "sandbox"]
        [cs "a", cs "real", cs "sandbox", cs "x"] = true := by
  refine ⟨by decide, by decide, by decide, by decide, by decide⟩

/-- C4 (amended): provided the configured SandboxRoot equals its
canonicalized form, every path the walk blames for a symlink failure lies
strictly below the root (the root has it as a proper component-wise
prefix), so neither the sandbox root itself nor any of its ancestors is
ever the source of a symlink failure. -/
theorem claim4_walk_below_root (fs : FS) (root : AbsPath) (p : List Char)
    (fs1 : FS) (hmk : mkdirp fs root = some fs1)
    (hcanon : resolve fs1 root = some root)
    (hsym : (validate_path fs root p).1 = Except.error Err.symlink) :
    ∃ q, q ∈ chainList root (joinAbs root (stripLeading p)) ∧
      root <+: q ∧ q ≠ root ∧ existsF fs1 q = true ∧ isSymlinkF fs1 q = true := by
  unfold validate_path validateCore at hsym
  rw [hmk] at hsym
  dsimp only at hsym
  rw [hcanon] at hsym
  dsimp only at hsym
  cases hw : walkCheck fs1 root (joinAbs root (stripLeading p)) with
  | error e =>
    have he : e = Err.symlink := walkGo_err_kind fs1 root _ _ e hw
    subst he
    rcases walkGo_bad_of_err fs1 root _ _ hw with ⟨q, hq, hex, hsy⟩
    have hqc : q ∈ chainGo root ((root ++ parseRel (stripLeading p)).length + 1)
        (root ++ parseRel (stripLeading p)) := by
      rw [← joinAbs_strip root p]
      exact hq
    have hb := chainGo_below root _ (parseRel (stripLeading p)) q hqc
    refine ⟨q, ?_, hb.1, hb.2, hex, hsy⟩
    rw [joinAbs_strip root p] at hq ⊢
    exact hq
  | ok u =>
    rw [hw] at hsym
    dsimp only at hsym
    cases hr : resolve fs1 (joinAbs root (stripLeading p)) with
    | none =>
      rw [hr] at hsym
      simp at hsym
    | some full =>
      rw [hr] at hsym
      dsimp only at hsym
      by_cases hp : isPre root full = true
      · rw [if_pos hp] at hsym
        simp at hsym
      · rw [if_neg hp] at hsym
        simp at hsym

theorem claim4_wit :
    ∃ q, q ∈ chainList exRootS (joinAbs exRootS (stripLeading (cs "link"))) ∧
      exRootS <+: q ∧ q ≠ exRootS ∧ existsF exFSW3 q = true ∧
      isSymlinkF exFSW3 q = true :=
  claim4_walk_below_root exFSW3 exRootS (cs "link") exFSW3 (by decide)
    (by decide) (by decide)

theorem validate_snd (fs : FS) (root : AbsPath) (p : List Char) :
    (validate_path fs root p).2 = (mkdirp fs root).getD fs := by
  unfold validate_path validateCore
  cases hmk : mkdirp fs root with
  | none => rfl
  | some fs1 =>
    dsimp only [Option.getD]
    split
    · rfl
    · split
      · rfl
      · split
        · rfl
        · split <;> rfl

theorem list_snd (fs : FS) (root : AbsPath) (p : List Char) :
    (list_directory fs root p).2 = (validate_path fs root p).2 := by
  unfold list_directory
  cases hv : validate_path fs root p with
  | mk res fs1 =>
    cases res with
    | error e => rfl
    | ok r =>
      dsimp only
      split
      · rfl
      · split
        · rfl
        · split
          · rfl
          · split <;> rfl

theorem read_snd (fs : FS) (root : AbsPath) (p : List Char) :
    (read_file fs root p).2 = (validate_path fs root p).2 := by
  unfold read_file
  cases hv : validate_path fs root p with
  | mk res fs1 =>
    cases res with
    | error e => rfl
    | ok r =>
      dsimp only
      split
      · rfl
      · split
        · rfl
        · split
          · split <;> rfl
          · rfl

/-- C8: the only filesystem mutation any of the three operations performs
is the idempotent recursive creation of the sandbox root: list and read
return exactly the validate state, that state is the mkdir -p result, it
equals the input state whenever the root already stats as a directory,
and any path whose entry changes was previously absent, becomes a
directory, and (when the root's ancestry is symlink-free) is a
component-wise prefix of the configured root. -/
theorem claim8_frame (fs : FS) (root : AbsPath) (p : List Char)
    (hC : CleanAbs root) :
    (list_directory fs root p).2 = (validate_path fs root p).2 ∧
    (read_file fs root p).2 = (validate_path fs root p).2 ∧
    (validate_path fs root p).2 = (mkdirp fs root).getD fs ∧
    (statNode fs root = some Node.dir → (validate_path fs root p).2 = fs) ∧
    (∀ fs', mkdirp fs root = some fs' → ∀ q,
      lookupRaw fs' q ≠ lookupRaw fs q →
        lookupRaw fs q = none ∧ lookupRaw fs' q = some Node.dir ∧
          (NoLinkPre fs root → q <+: root)) := by
  refine ⟨list_snd fs root p, read_snd fs root p, validate_snd fs root p, ?_, ?_⟩
  · intro hdir
    rw [validate_snd fs root p, mkdirp_noop fs root hdir]
    rfl
  · intro fs' hmk q hq
    have hext := mkdirp_ext fs root fs' hC hmk
    rcases hext q with heq | ⟨h1, h2⟩
    · exact absurd heq hq
    · exact ⟨h1, h2, fun hN => mkdirpGo_below _ fs root fs' hC hN hmk q hq⟩

theorem claim8_wit :
    ((validate_path exFS8 exRoot5 (cs "")).2
        = (mkdirp exFS8 exRoot5).getD exFS8) ∧
      lookupRaw exFS8 exRoot5 = none ∧
      lookupRaw ((mkdirp exFS8 exRoot5).getD exFS8) exRoot5 = some Node.dir ∧
      (NoLinkPre exFS8 exRoot5 → exRoot5 <+: exRoot5) := by
  have h := claim8_frame exFS8 exRoot5 (cs "") (by decide)
  refine ⟨h.2.2.1, ?_⟩
  exact h.2.2.2.2 ((mkdirp exFS8 exRoot5).getD exFS8) (by decide) exRoot5
    (by decide)

theorem read_file_eval (fs : FS) (root : AbsPath) (p : List Char) (r : AbsPath)
    (fs1 : FS) (hv : validate_path fs root p = (Except.ok r, fs1)) :
    read_file fs root p =
      ((match statNode fs1 r with
        | none => Except.error Err.notFound
        | some Node.dir => Except.error Err.isADir
        | some (Node.file bs) =>
          match utf8Decode bs with
          | some cps => Except.ok (fixNewlines cps)
          | none => Except.error Err.decodeErr
        | some _ => Except.error Err.other), fs1) := by
  unfold read_file
  rw [hv]
  dsimp only
  cases hs : statNode fs1 r with
  | none =>
    rw [if_pos (by simp [existsF, hs])]
  | some nd =>
    cases nd with
    | dir =>
      rw [if_neg (by simp [existsF, hs]), if_pos (by simp [isDirF, hs])]
    | file bs =>
      rw [if_neg (by simp [existsF, hs]), if_neg (by simp [isDirF, hs])]
      dsimp only
      cases hd : utf8Decode bs <;> rfl
    | symlink b t =>
      rw [if_neg (by simp [existsF, hs]), if_neg (by simp [isDirF, hs])]
    | special mode sz =>
      rw [if_neg (by simp [existsF, hs]), if_neg (by simp [isDirF, hs])]

/-- C7: given a validated path, read_file raises NotFound exactly when the
resolved path does not exist, IsADirectory exactly when it stats as a
directory (never NotFound for a directory), DecodeError exactly when the
file's bytes are not valid UTF-8, and otherwise returns the decoded text
content (with universal-newline translation). -/
theorem claim7_read_taxonomy (fs : FS) (root : AbsPath) (p : List Char)
    (r : AbsPath) (fs1 : FS) (hsp : NoSpecial fs)
    (hv : validate_path fs root p = (Except.ok r, fs1)) :
    ((read_file fs root p).1 = Except.error Err.notFound ↔
        statNode fs1 r = none) ∧
    ((read_file fs root p).1 = Except.error Err.isADir ↔
        statNode fs1 r = some Node.dir) ∧
    ((read_file fs root p).1 = Except.error Err.decodeErr ↔
        ∃ bs, statNode fs1 r = some (Node.file bs) ∧ utf8Decode bs = none) ∧
    (∀ bs out, statNode fs1 r = some (Node.file bs) → utf8Decode bs = some out →
        read_file fs root p = (Except.ok (fixNewlines out), fs1)) := by
  rcases validate_ok_inv fs root p r fs1 hv with ⟨hmk, sres, hres, hpre, hcand, hwalk⟩
  rcases resolve_idem fs1 _ r hcand with ⟨hNr, hCr, hfix⟩
  have hstat : statNode fs1 r = lookupRaw fs1 r := statNode_fix fs1 r hfix
  have hns : optIsLink (lookupRaw fs1 r) = false :=
    hNr r ((List.mem_inits _ _).mpr List.prefix_rfl)
  have hsp1 : NoSpecial fs1 := fun kv hkv =>
    (mkdirpGo_entries _ fs root fs1 hmk kv hkv).elim (fun h2 => hsp kv h2)
      (fun h2 => by rw [h2]; rfl)
  have hnosp : ∀ mode sz, lookupRaw fs1 r ≠ some (Node.special mode sz) := by
    intro mode sz hcon
    rw [lookupRaw] at hcon
    split at hcon
    · simp at hcon
    · split at hcon
      · next kv hkv =>
        have hmem := List.mem_of_find?_eq_some hkv
        have := hsp1 kv hmem
        rw [Option.some.injEq] at hcon
        rw [hcon] at this
        simp [isSpecialN] at this
      · simp at hcon
  have heval := read_file_eval fs root p r fs1 hv
  rw [heval, hstat]
  cases hnd : lookupRaw fs1 r with
  | none => simp
  | some nd =>
    cases nd with
    | dir => simp
    | file bs =>
      cases hd : utf8Decode bs with
      | none =>
        refine ⟨by simp [hd], by simp [hd], by simp [hd], ?_⟩
        intro bs2 out hbs2 hdec2
        rw [Option.some.injEq, Node.file.injEq] at hbs2
        subst hbs2
        rw [hd] at hdec2
        exact absurd hdec2 (by simp)
      | some out =>
        refine ⟨by simp [hd], by simp [hd], ?_, ?_⟩
        · constructor
          · intro hcon
            simp [hd] at hcon
          · rintro ⟨bs2, hbs2, hdec2⟩
            rw [Option.some.injEq, Node.file.injEq] at hbs2
            subst hbs2
            rw [hd] at hdec2
            exact absurd hdec2 (by simp)
        · intro bs2 out2 hbs2 hdec2
          rw [Option.some.injEq, Node.file.injEq] at hbs2
          subst hbs2
          rw [hd, Option.some.injEq] at hdec2
          subst hdec2
          dsimp only
          rw [hd]
    | symlink b t =>
      rw [hnd] at hns
      simp [optIsLink] at hns
    | special mode sz => exact absurd hnd (hnosp mode sz)

theorem claim7_wit :
    (((read_file exFS7 exRootS (cs "f.txt")).1 = Except.error Err.notFound ↔
        statNode exFS7 [cs "s", cs "f.txt"] = none) ∧
      ((read_file exFS7 exRootS (cs "f.txt")).1 = Except.error Err.isADir ↔
        statNode exFS7 [cs "s", cs "f.txt"] = some Node.dir) ∧
      ((read_file exFS7 exRootS (cs "f.txt")).1 = Except.error Err.decodeErr ↔
        ∃ bs, statNode exFS7 [cs "s", cs "f.txt"] = some (Node.file bs) ∧
          utf8Decode bs = none) ∧
      (∀ bs out, statNode exFS7 [cs "s", cs "f.txt"] = some (Node.file bs) →
        utf8Decode bs = some out →
          read_file exFS7 exRootS (cs "f.txt")
            = (Except.ok (fixNewlines out), exFS7))) :=
  claim7_read_taxonomy exFS7 exRootS (cs "f.txt") [cs "s", cs "f.txt"] exFS7
    (by decide) (by decide)

theorem nameLE_total : ∀ a b : List Char, nameLE a b = true ∨ nameLE b a = true
  | [], _ => Or.inl rfl
  | _ :: _, [] => Or.inr rfl
  | a :: as, b :: bs => by
    rcases lt_trichotomy a b with hab | hab | hab
    · left
      rw [nameLE, if_pos hab]
    · subst hab
      rw [nameLE, if_neg (lt_irrefl a), if_neg (lt_irrefl a)]
      rw [nameLE, if_neg (lt_irrefl a), if_neg (lt_irrefl a)]
      exact nameLE_total as bs
    · right
      rw [nameLE, if_pos hab]

theorem nameLE_trans : ∀ a b c : List Char, nameLE a b = true →
    nameLE b c = true → nameLE a c = true
  | [], _, _ => by intro _ _; rfl
  | a :: as, [], c => by intro h _; simp [nameLE] at h
  | a :: as, b :: bs, [] => by intro _ h; simp [nameLE] at h
  | a :: as, b :: bs, c :: csx => by
    intro h1 h2
    rw [nameLE] at h1 h2 ⊢
    split at h1
    · next hab =>
      split at h2
      · next hbc => rw [if_pos (hab.trans hbc)]
      · next hbc =>
        split at h2
        · simp at h2
        · next hcb =>
          have hbeq : b = c := le_antisymm (not_lt.mp hcb) (not_lt.mp hbc)
          subst hbeq
          rw [if_pos hab]
    · next hab =>
      split at h1
      · simp at h1
      · next hba =>
        have haeq : a = b := le_antisymm (not_lt.mp hba) (not_lt.mp hab)
        subst haeq
        by_cases hac : a < c
        · rw [if_pos hac]
        · rw [if_neg hac]
          by_cases hca : c < a
          · rw [if_neg hac, if_pos hca] at h2
            simp at h2
          · rw [if_neg hca]
            rw [if_neg hac, if_neg hca] at h2
            exact nameLE_trans as bs csx h1 h2

theorem insertName_perm (x : Comp) :
    ∀ l : List Comp, List.Perm (insertName x l) (x :: l) := by
  intro l
  induction l with
  | nil => exact List.Perm.refl _
  | cons y ys ih =>
    rw [insertName]
    split
    · exact List.Perm.refl _
    · exact (List.Perm.cons y ih).trans (List.Perm.swap x y ys)

theorem sortNames_perm : ∀ l : List Comp, List.Perm (sortNames l) l := by
  intro l
  induction l with
  | nil => exact List.Perm.refl _
  | cons x xs ih =>
    exact (insertName_perm x (sortNames xs)).trans (List.Perm.cons x ih)

theorem insertName_pairwise (x : Comp) :
    ∀ l : List Comp, l.Pairwise (fun a b => nameLE a b = true) →
      (insertName x l).Pairwise (fun a b => nameLE a b = true) := by
  intro l
  induction l with
  | nil => intro _; exact List.pairwise_singleton _ x
  | cons y ys ih =>
    intro h
    rcases List.pairwise_cons.mp h with ⟨hy, hys⟩
    rw [insertName]
    split
    · next hxy =>
      refine List.pairwise_cons.mpr ⟨?_, h⟩
      intro z hz
      rcases List.mem_cons.mp hz with hz1 | hz1
      · subst hz1
        exact hxy
      · exact nameLE_trans x y z hxy (hy z hz1)
    · next hxy =>
      refine List.pairwise_cons.mpr ⟨?_, ih hys⟩
      intro z hz
      rcases List.mem_cons.mp ((insertName_perm x ys).mem_iff.mp hz) with hz1 | hz1
      · rcases nameLE_total x y with h1 | h1
        · exact absurd h1 hxy
        · rw [hz1]
          exact h1
      · exact hy z hz1

theorem sortNames_pairwise :
    ∀ l : List Comp, (sortNames l).Pairwise (fun a b => nameLE a b = true) := by
  intro l
  induction l with
  | nil => exact List.Pairwise.nil
  | cons x xs ih => exact insertName_pairwise x (sortNames xs) ih

theorem childNames_mem (fs : FS) (d : AbsPath) (n : Comp) :
    n ∈ childNames fs d ↔ ∃ nd, (d ++ [n], nd) ∈ fs := by
  unfold childNames
  rw [List.mem_filterMap]
  constructor
  · rintro ⟨k, hk, hfk⟩
    split at hfk
    · next hcond =>
      rcases List.mem_map.mp hk with ⟨kv, hkv, hkeq⟩
      have hkrec : k = d ++ [n] := by
        have := List.dropLast_append_getLast? n hfk
        rw [hcond.2] at this
        exact this.symm
      refine ⟨kv.2, ?_⟩
      rw [← hkrec, ← hkeq]
      simpa using hkv
    · simp at hfk
  · rintro ⟨nd, hnd⟩
    refine ⟨d ++ [n], List.mem_map.mpr ⟨(d ++ [n], nd), hnd, rfl⟩, ?_⟩
    rw [if_pos ⟨by simp, List.dropLast_concat⟩]
    exact List.getLast?_concat d

theorem childNames_nodup (fs : FS) (d : AbsPath) (h : NodupKeys fs) :
    (childNames fs d).Nodup := by
  refine List.Nodup.filterMap ?_ h
  intro k k' n hk hk'
  rw [Option.mem_def] at hk hk'
  have hkeq : k = d ++ [n] := by
    split at hk
    · next hcond =>
      have := List.dropLast_append_getLast? n hk
      rw [hcond.2] at this
      exact this.symm
    · simp at hk
  have hkeq' : k' = d ++ [n] := by
    split at hk'
    · next hcond =>
      have := List.dropLast_append_getLast? n hk'
      rw [hcond.2] at this
      exact this.symm
    · simp at hk'
  rw [hkeq, hkeq']

theorem lookupRaw_mem (fs : FS) (k : AbsPath) (nd : Node)
    (h : lookupRaw fs k = some nd) (hk : k ≠ []) : (k, nd) ∈ fs := by
  rw [lookupRaw, if_neg hk] at h
  split at h
  · next kv hkv =>
    have hmem := List.mem_of_find?_eq_some hkv
    have hpk := List.find?_some hkv
    rw [decide_eq_true_eq] at hpk
    rw [Option.some.injEq] at h
    have : kv = (k, nd) := by
      rcases kv with ⟨k1, n1⟩
      simp only at hpk h
      rw [hpk, h]
    rw [← this]
    exact hmem
  · simp at h

theorem mem_lookupRaw (fs : FS) (k : AbsPath) (nd : Node)
    (hnd : NodupKeys fs) (hk : k ≠ []) (h : (k, nd) ∈ fs) :
    lookupRaw fs k = some nd := by
  induction fs with
  | nil => simp at h
  | cons kv rest ih =>
    rcases List.mem_cons.mp h with h1 | h1
    · rw [lookupRaw, if_neg hk, List.find?_cons_of_pos _ (by rw [← h1]; simp)]
      rw [← h1]
    · have hkv : kv.1 ≠ k := by
        intro hcon
        rcases List.nodup_cons.mp hnd with ⟨hni, _⟩
        exact hni (hcon ▸ List.mem_map.mpr ⟨(k, nd), h1, rfl⟩)
      rw [lookupRaw, if_neg hk, List.find?_cons_of_neg _ (by simp [hkv])]
      have := ih (List.nodup_cons.mp hnd).2 h1
      rw [lookupRaw, if_neg hk] at this
      exact this

theorem entryFor_name (root item : AbsPath) (n : Comp) (nd : Node) :
    (entryFor root item n nd).name = n := by
  unfold entryFor
  split <;> rfl

theorem entryFor_size (root item : AbsPath) (n : Comp) (nd : Node) :
    ((entryFor root item n nd).type = EKind.directory ∧
        (entryFor root item n nd).size = none ∧ nodeIsDir nd = true) ∨
      ((entryFor root item n nd).type = EKind.file ∧
        (entryFor root item n nd).size = some (nodeSize nd) ∧
        nodeIsDir nd = false) := by
  unfold entryFor
  split
  · next h => exact Or.inl ⟨rfl, rfl, h⟩
  · next h => exact Or.inr ⟨rfl, rfl, by revert h; cases nodeIsDir nd <;> simp⟩

theorem buildEntries_cons_nonlink (fs : FS) (root r : AbsPath) (n : Comp)
    (ns : List Comp) (nd : Node) (hlst : lstatNode fs (r ++ [n]) = some nd)
    (hnl : isLinkN nd = false) :
    buildEntries fs root r (n :: ns) =
      (if isPre root (r ++ [n]) then
        match buildEntries fs root r ns with
        | Except.error e => Except.error e
        | Except.ok es => Except.ok (entryFor root (r ++ [n]) n nd :: es)
      else Except.error Err.other) := by
  rw [buildEntries, hlst]
  cases nd with
  | symlink b t => simp [isLinkN] at hnl
  | dir => rfl
  | file bs => rfl
  | special mode sz => rfl

theorem buildEntries_spec (fs : FS) (root r : AbsPath) :
    ∀ ns es, buildEntries fs root r ns = Except.ok es →
      (∀ n ∈ ns, lstatNode fs (r ++ [n]) = lookupRaw fs (r ++ [n])) →
      (es.map Entry.name = ns.filter (keepB fs r)) ∧
      (∀ e ∈ es, ∃ nd, lookupRaw fs (r ++ [e.name]) = some nd ∧
          isLinkN nd = false ∧ e = entryFor root (r ++ [e.name]) e.name nd) ∧
      (∀ n nd, n ∈ ns → lookupRaw fs (r ++ [n]) = some nd → isLinkN nd = false →
          entryFor root (r ++ [n]) n nd ∈ es) := by
  intro ns
  induction ns with
  | nil =>
    intro es h _
    rw [buildEntries, Except.ok.injEq] at h
    subst h
    refine ⟨rfl, by intro e he; simp at he, by intro n nd hn; simp at hn⟩
  | cons n ns ih =>
    intro es h hall
    have hlst := hall n (List.mem_cons_self n ns)
    have hrest : ∀ m ∈ ns, lstatNode fs (r ++ [m]) = lookupRaw fs (r ++ [m]) :=
      fun m hm => hall m (List.mem_cons_of_mem n hm)
    cases hnd : lookupRaw fs (r ++ [n]) with
    | none =>
      rw [buildEntries, hlst, hnd] at h
      simp at h
    | some nd =>
      cases hisl : isLinkN nd with
      | true =>
        have hsym : ∃ b t, nd = Node.symlink b t := by
          cases nd <;> simp [isLinkN] at hisl ⊢
        rcases hsym with ⟨b, t, hbt⟩
        subst hbt
        rw [buildEntries, hlst, hnd] at h
        dsimp only at h
        rcases ih es h hrest with ⟨hmap, hent, hcont⟩
        refine ⟨?_, hent, ?_⟩
        · rw [List.filter_cons_of_neg (by unfold keepB; rw [hnd]; simp [isLinkN])]
          exact hmap
        · intro m nd2 hm hnd2 hnl2
          rcases List.mem_cons.mp hm with hm1 | hm1
          · rw [hm1] at hnd2
            rw [hnd2] at hnd
            rw [Option.some.injEq] at hnd
            rw [hnd] at hnl2
            simp [isLinkN] at hnl2
          · exact hcont m nd2 hm1 hnd2 hnl2
      | false =>
        rw [buildEntries_cons_nonlink fs root r n ns nd (hlst.trans hnd) hisl] at h
        split at h
        · next hpre =>
          cases hrec : buildEntries fs root r ns with
          | error e =>
            rw [hrec] at h
            simp at h
          | ok es2 =>
            rw [hrec] at h
            dsimp only at h
            rw [Except.ok.injEq] at h
            subst h
            rcases ih es2 hrec hrest with ⟨hmap, hent, hcont⟩
            refine ⟨?_, ?_, ?_⟩
            · rw [List.filter_cons_of_pos (by unfold keepB; rw [hnd]; simp [hisl])]
              rw [List.map_cons, hmap, entryFor_name]
            · intro e he
              rcases List.mem_cons.mp he with he1 | he1
              · refine ⟨nd, ?_, hisl, ?_⟩
                · rw [he1, entryFor_name]
                  exact hnd
                · rw [he1, entryFor_name]
              · exact hent e he1
            · intro m nd2 hm hnd2 hnl2
              rcases List.mem_cons.mp hm with hm1 | hm1
              · subst hm1
                rw [hnd2] at hnd
                rw [Option.some.injEq] at hnd
                subst hnd
                exact List.mem_cons_self _ _
              · exact List.mem_cons_of_mem _ (hcont m nd2 hm1 hnd2 hnl2)
        · simp at h

theorem list_ok_inv (fs : FS) (root : AbsPath) (p : List Char)
    (es : List Entry) (fs1 : FS)
    (h : list_directory fs root p = (Except.ok es, fs1)) :
    ∃ r, validate_path fs root p = (Except.ok r, fs1) ∧
      existsF fs1 r = true ∧ isDirF fs1 r = true ∧
      ∃ rd, resolve fs1 r = some rd ∧
        buildEntries fs1 root r (sortNames (childNames fs1 rd))
          = Except.ok es := by
  unfold list_directory at h
  cases hval : validate_path fs root p with
  | mk res fs2 =>
    rw [hval] at h
    cases res with
    | error e => simp at h
    | ok r =>
      dsimp only at h
      split at h
      · simp at h
      · next hex =>
        split at h
        · simp at h
        · next hdir =>
          cases hrd : resolve fs2 r with
          | none =>
            rw [hrd] at h
            simp at h
          | some rd =>
            rw [hrd] at h
            dsimp only at h
            cases hbe : buildEntries fs2 root r (sortNames (childNames fs2 rd)) with
            | error e =>
              rw [hbe] at h
              simp at h
            | ok es2 =>
              rw [hbe] at h
              dsimp only at h
              rw [Prod.mk.injEq] at h
              rcases h with ⟨h1, h2⟩
              rw [Except.ok.injEq] at h1
              subst h1
              subst h2
              refine ⟨r, rfl, ?_, ?_, rd, hrd, hbe⟩
              · revert hex
                cases existsF fs2 r <;> simp
              · revert hdir
                cases isDirF fs2 r <;> simp

theorem list_spec_core (fs : FS) (root : AbsPath) (p : List Char)
    (r : AbsPath) (es : List Entry)
    (hclean : CleanFS fs) (hnodup : NodupKeys fs)
    (hv : validate_path fs root p = (Except.ok r, fs))
    (hl : list_directory fs root p = (Except.ok es, fs)) :
    (es.map Entry.name
        = (sortNames (childNames fs r)).filter (keepB fs r)) ∧
      (∀ e ∈ es, ∃ nd, lookupRaw fs (r ++ [e.name]) = some nd ∧
          isLinkN nd = false ∧ e = entryFor root (r ++ [e.name]) e.name nd) ∧
      (∀ n nd, lookupRaw fs (r ++ [n]) = some nd → isLinkN nd = false →
          entryFor root (r ++ [n]) n nd ∈ es) := by
  rcases list_ok_inv fs root p es fs hl with ⟨r2, hv2, hex, hdir, rd, hrd, hbe⟩
  have hr2 : r2 = r := by
    rw [hv] at hv2
    rw [Prod.mk.injEq] at hv2
    exact (Except.ok.inj hv2.1).symm
  rw [hr2] at hrd hbe
  rcases validate_ok_inv fs root p r fs hv with ⟨hmk, sres, hres, hpre2, hcand, hwalk⟩
  rcases resolve_idem fs _ r hcand with ⟨hNr, hCr, hfix⟩
  have hrdeq : rd = r := by
    rw [hrd] at hfix
    exact Option.some.inj hfix
  rw [hrdeq] at hbe
  have hall : ∀ n ∈ sortNames (childNames fs r),
      lstatNode fs (r ++ [n]) = lookupRaw fs (r ++ [n]) := by
    intro n hn
    have hcn : n ∈ childNames fs r := (sortNames_perm _).mem_iff.mp hn
    rcases (childNames_mem fs r n).mp hcn with ⟨nd, hmem⟩
    have hcl := hclean (r ++ [n], nd) hmem
    have hnc := hcl.2 n (by simp)
    exact lstat_child fs r n hfix hnc.1 hnc.2.1 hnc.2.2
  rcases buildEntries_spec fs root r _ es hbe hall with ⟨hmap, hent, hcont⟩
  refine ⟨hmap, hent, ?_⟩
  intro n nd hnd hnl
  refine hcont n nd ?_ hnd hnl
  refine (sortNames_perm _).mem_iff.mpr ?_
  exact (childNames_mem fs r n).mpr ⟨nd, lookupRaw_mem fs _ nd hnd (by simp)⟩

/-- C6: for a validated path whose resolved form is an existing directory,
list_directory returns exactly the non-symlink immediate children, sorted
ascending by codepoint through the name comparison, without duplicates;
symlinked children are silently omitted; every file entry carries a size
and no directory entry does. -/
theorem claim6_list_children (fs : FS) (root : AbsPath) (p : List Char)
    (r : AbsPath) (es : List Entry)
    (hclean : CleanFS fs) (hnodup : NodupKeys fs)
    (hv : validate_path fs root p = (Except.ok r, fs))
    (hl : list_directory fs root p = (Except.ok es, fs)) :
    (es.map Entry.name).Pairwise (fun a b => nameLE a b = true) ∧
      (es.map Entry.name).Nodup ∧
      (∀ n, n ∈ es.map Entry.name ↔
        ∃ nd, lookupRaw fs (r ++ [n]) = some nd ∧ isLinkN nd = false) ∧
      (∀ e ∈ es, (e.type = EKind.file → ∃ sz, e.size = some sz) ∧
        (e.type = EKind.directory → e.size = none)) := by
  rcases list_spec_core fs root p r es hclean hnodup hv hl with ⟨hmap, hent, hcont⟩
  refine ⟨?_, ?_, ?_, ?_⟩
  · rw [hmap]
    exact (sortNames_pairwise _).sublist (List.filter_sublist _)
  · rw [hmap]
    exact List.Nodup.sublist (List.filter_sublist _)
      ((sortNames_perm _).symm.nodup (childNames_nodup fs r hnodup))
  · intro n
    rw [hmap]
    constructor
    · intro hn
      rcases List.mem_filter.mp hn with ⟨hns, hkeep⟩
      unfold keepB at hkeep
      cases hfind : lookupRaw fs (r ++ [n]) with
      | none =>
        rw [hfind] at hkeep
        simp at hkeep
      | some nd =>
        rw [hfind] at hkeep
        dsimp only at hkeep
        refine ⟨nd, rfl, ?_⟩
        simpa using hkeep
    · rintro ⟨nd, hnd, hnl⟩
      refine List.mem_filter.mpr ⟨?_, ?_⟩
      · refine (sortNames_perm _).mem_iff.mpr ?_
        exact (childNames_mem fs r n).mpr ⟨nd, lookupRaw_mem fs _ nd hnd (by simp)⟩
      · unfold keepB
        rw [hnd]
        simp [hnl]
  · intro e he
    rcases hent e he with ⟨nd, hnd, hnl, hef⟩
    rcases entryFor_size root (r ++ [e.name]) e.name nd with
      ⟨ht, hsz, _⟩ | ⟨ht, hsz, _⟩
    · constructor
      · intro hty
        rw [hef, ht] at hty
        simp at hty
      · intro _
        rw [hef, hsz]
    · constructor
      · intro _
        rw [hef, hsz]
        exact ⟨nodeSize nd, rfl⟩
      · intro hty
        rw [hef, ht] at hty
        simp at hty

theorem claim6_wit :
    (exEs6.map Entry.name).Pairwise (fun a b => nameLE a b = true) ∧
      (exEs6.map Entry.name).Nodup ∧
      (∀ n, n ∈ exEs6.map Entry.name ↔
        ∃ nd, lookupRaw exFS6 ([cs "s"] ++ [n]) = some nd ∧ isLinkN nd = false) ∧
      (∀ e ∈ exEs6, (e.type = EKind.file → ∃ sz, e.size = some sz) ∧
        (e.type = EKind.directory → e.size = none)) :=
  claim6_list_children exFS6 exRootS (cs "") [cs "s"] exEs6 (by decide)
    (by decide) (by decide) (by decide)

/-- C10 counterexample: the source classifies by the raw bit test
`st_mode & 0o040000`, and the S_IFSOCK code 0o140000 contains that bit,
so the socket child of exFS10 is reported with kind directory and no
size field, not as a file with a size as the claim states (the claim's
predicted entry does not occur). -/
theorem claim10_counter :
    list_directory exFS10 exRootS (cs "") = (Except.ok exEs10, exFS10) ∧
      ({ name := cs "sock", type := EKind.directory, path := [cs "sock"],
         size := none } : Entry) ∈ exEs10 ∧
      (∀ e ∈ exEs10, e.name = cs "sock" →
        e.type = EKind.directory ∧ e.size = none) := by
  refine ⟨by decide, by decide, by decide⟩

/-- C10 (amended): list_directory classifies each retained child solely
by the 0o040000 bit of its raw lstat mode: every retained child's entry
is exactly entryFor; a special file whose S_IFMT code does not contain
the bit (a FIFO or character device) is reported as a file with its
st_size, while one whose code contains the bit (a socket or block
device) is reported as a directory without a size; every returned
entry's kind is file or directory. -/
theorem claim10_mode_bit (fs : FS) (root : AbsPath) (p : List Char)
    (r : AbsPath) (es : List Entry)
    (hclean : CleanFS fs) (hnodup : NodupKeys fs)
    (hv : validate_path fs root p = (Except.ok r, fs))
    (hl : list_directory fs root p = (Except.ok es, fs)) :
    (∀ n nd, lookupRaw fs (r ++ [n]) = some nd → isLinkN nd = false →
        entryFor root (r ++ [n]) n nd ∈ es) ∧
      (∀ n mode sz, lookupRaw fs (r ++ [n]) = some (Node.special mode sz) →
        Nat.land mode 16384 = 0 →
        ({ name := n, type := EKind.file, path := (r ++ [n]).drop root.length,
           size := some sz } : Entry) ∈ es) ∧
      (∀ n mode sz, lookupRaw fs (r ++ [n]) = some (Node.special mode sz) →
        Nat.land mode 16384 ≠ 0 →
        ({ name := n, type := EKind.directory,
           path := (r ++ [n]).drop root.length, size := none } : Entry) ∈ es) ∧
      (∀ e ∈ es, e.type = EKind.file ∨ e.type = EKind.directory) := by
  rcases list_spec_core fs root p r es hclean hnodup hv hl with ⟨hmap, hent, hcont⟩
  refine ⟨hcont, ?_, ?_, ?_⟩
  · intro n mode sz hnd hbit
    have hnid : nodeIsDir (Node.special mode sz) = false := by
      simp [nodeIsDir, hbit]
    have hmem := hcont n (Node.special mode sz) hnd rfl
    unfold entryFor at hmem
    rw [hnid] at hmem
    simpa [nodeSize] using hmem
  · intro n mode sz hnd hbit
    have hnid : nodeIsDir (Node.special mode sz) = true := by
      simp only [nodeIsDir, decide_eq_true_eq]
      exact hbit
    have hmem := hcont n (Node.special mode sz) hnd rfl
    unfold entryFor at hmem
    rw [hnid] at hmem
    simpa using hmem
  · intro e he
    rcases hent e he with ⟨nd, _, _, hef⟩
    rcases entryFor_size root (r ++ [e.name]) e.name nd with
      ⟨ht, _, _⟩ | ⟨ht, _, _⟩
    · right
      rw [hef]
      exact ht
    · left
      rw [hef]
      exact ht

theorem claim10_wit :
    (∀ n nd, lookupRaw exFS10 ([cs "s"] ++ [n]) = some nd → isLinkN nd = false →
        entryFor exRootS ([cs "s"] ++ [n]) n nd ∈ exEs10) ∧
      (∀ n mode sz, lookupRaw exFS10 ([cs "s"] ++ [n])
          = some (Node.special mode sz) → Nat.land mode 16384 = 0 →
        ({ name := n, type := EKind.file,
           path := ([cs "s"] ++ [n]).drop exRootS.length,
           size := some sz } : Entry) ∈ exEs10) ∧
      (∀ n mode sz, lookupRaw exFS10 ([cs "s"] ++ [n])
          = some (Node.special mode sz) → Nat.land mode 16384 ≠ 0 →
        ({ name := n, type := EKind.directory,
           path := ([cs "s"] ++ [n]).drop exRootS.length,
           size := none } : Entry) ∈ exEs10) ∧
      (∀ e ∈ exEs10, e.type = EKind.file ∨ e.type = EKind.directory) :=
  claim10_mode_bit exFS10 exRootS (cs "") [cs "s"] exEs10 (by decide)
    (by decide) (by decide) (by decide)

end OzSandbox
